import Mathlib

set_option maxRecDepth 100000

/-!
Shallow embedding of the bcCaptioner overlay function
(`functions/overlay.js`, the variant with balanced line splitting and the
in-memory image cache).  JavaScript numbers are modelled as rationals,
byte buffers as lists of naturals, and the canvas text-measurement
facility as a pure function `String → MVal` (a numeric width or NaN;
a provider that throws is observationally the NaN case, since the only
guarded call site treats both identically).
-/

/-- Result of `context.measureText(s).width`: a numeric width or NaN. -/
inductive MVal where
  | ok (w : ℚ)
  | nan
deriving DecidableEq

/-- JS comparison `v <= q` (false when `v` is NaN). -/
def mleB (v : MVal) (q : ℚ) : Bool :=
  match v with
  | .ok w => w ≤ q
  | .nan => false

/-- JS comparison `v < q` (false when `v` is NaN). -/
def mltB (v : MVal) (q : ℚ) : Bool :=
  match v with
  | .ok w => w < q
  | .nan => false

/-- JS `text.split(' ')` at the character level: split on every single
space, keeping empty pieces, as JS `String.prototype.split` does. -/
def splitChars : List Char → List (List Char)
  | [] => [[]]
  | c :: cs =>
    if c = ' ' then [] :: splitChars cs
    else
      match splitChars cs with
      | [] => [[c]]
      | w :: ws => (c :: w) :: ws

/-- JS `text.split(' ')` on strings. -/
def jsSplit (s : String) : List String :=
  (splitChars s.data).map String.mk

/-- JS `arr.join(' ')`: join strings with single spaces. -/
def joinSp : List String → String
  | [] => ""
  | [w] => w
  | w :: v :: ws => w ++ " " ++ joinSp (v :: ws)

/-- The two-line split of a word list at index `i`:
`[words.slice(0,i).join(' '), words.slice(i).join(' ')]`. -/
def splitAt2 (words : List String) (i : ℕ) : List String :=
  [joinSp (words.take i), joinSp (words.drop i)]

/-- The `canMeasure` flag of `wrapText` (overlay.js lines 13-23):
false when the whole-text measurement is below the sanity floor 10
or not a number. -/
def canMeasureOf (μ : String → MVal) (text : String) : Bool :=
  match μ text with
  | .ok w => !(w < 10 : Bool)
  | .nan => false

/-- The greedy wrapping loop of `wrapText` (lines 85-99), with the
current line as explicit state. -/
def greedyGo (μ : String → MVal) (maxWidth : ℚ) : String → List String → List String
  | current, [] => [current]
  | current, w :: ws =>
    if mltB (μ (current ++ " " ++ w)) maxWidth then
      greedyGo μ maxWidth (current ++ " " ++ w) ws
    else
      current :: greedyGo μ maxWidth w ws

/-- Greedy wrapping: `currentLine = words[0] || ''`, then accumulate. -/
def greedy (μ : String → MVal) (maxWidth : ℚ) (words : List String) : List String :=
  greedyGo μ maxWidth (words.headD "") words.tail

/-- One iteration of the balanced-split candidate loop
(lines 39-55): state is `(bestBalance, bestSplit)`, with `none`
standing for the initial `Infinity`. -/
def bestStep (μ : String → MVal) (maxWidth : ℚ) (words : List String)
    (st : Option ℚ × ℕ) (i : ℕ) : Option ℚ × ℕ :=
  match μ (joinSp (words.take i)), μ (joinSp (words.drop i)) with
  | .ok w1, .ok w2 =>
    if w1 ≤ maxWidth ∧ w2 ≤ maxWidth then
      let b := |w1 - w2|
      match st.1 with
      | none => (some b, i)
      | some bb => if b < bb then (some b, i) else st
    else st
  | _, _ => st

/-- Candidate split indices `max(1, mid-2) .. min(n-1, mid+2)`
of the balanced-split loop (line 39). -/
def candList (n : ℕ) : List ℕ :=
  List.range' (max 1 (n / 2 - 2)) (min (n - 1) (n / 2 + 2) + 1 - max 1 (n / 2 - 2))

/-- Whether the candidate split at `i` yields two lines that both
measure numerically and fit within `maxWidth`. -/
def fitsB (μ : String → MVal) (maxWidth : ℚ) (words : List String) (i : ℕ) : Bool :=
  mleB (μ (joinSp (words.take i))) maxWidth && mleB (μ (joinSp (words.drop i))) maxWidth

/-- The balance score `|firstWidth - secondWidth|` of the split at `i`
(0 when either side fails to measure; only used when `fitsB` holds). -/
def balQ (μ : String → MVal) (words : List String) (i : ℕ) : ℚ :=
  match μ (joinSp (words.take i)), μ (joinSp (words.drop i)) with
  | .ok w1, .ok w2 => |w1 - w2|
  | _, _ => 0

/-- The function `wrapText(context, text, maxWidth)` from overlay.js lines 9-100,
with the canvas context abstracted to the measurement function `μ`. -/
def wrapText (μ : String → MVal) (text : String) (maxWidth : ℚ) : List String :=
  let words := jsSplit text
  let canMeasure := canMeasureOf μ text
  if canMeasure && mleB (μ text) maxWidth then
    [text]
  else if 4 ≤ words.length then
    if canMeasure then
      let mid := words.length / 2
      let best := (candList words.length).foldl (bestStep μ maxWidth words) (none, mid)
      let firstLine := joinSp (words.take best.2)
      let secondLine := joinSp (words.drop best.2)
      if mleB (μ firstLine) maxWidth && mleB (μ secondLine) maxWidth then
        [firstLine, secondLine]
      else
        greedy μ maxWidth words
    else
      splitAt2 words (words.length / 2)
  else if !canMeasure && 2 ≤ words.length then
    splitAt2 words (words.length / 2)
  else
    greedy μ maxWidth words

/-- JS `Math.round`: round half toward positive infinity. -/
def jsRound (q : ℚ) : ℤ := ⌊q + 1 / 2⌋

/-- JS `Math.max(...lines.map(line => measureText(line).width))`, reflected
through the degraded-value check of overlay.js line 200: `some w` when
every line measures numerically (`w` the maximum), `none` when the list
is empty (`Math.max()` is `-Infinity`, caught by `< 10`) or any
measurement is NaN (caught by `isNaN`). -/
def longestLineWidthRaw (μ : String → MVal) (lines : List String) : Option ℚ :=
  match (lines.mapM fun l => match μ l with | .ok w => some w | .nan => none : Option (List ℚ)) with
  | some (w :: ws) => some (ws.foldl max w)
  | _ => none

/-- The character-based estimation fallback (lines 202-203):
`longestLine.length * (fontSize * 0.6)` with the longest line selected
by character count via `reduce`. -/
def charEstimate (lines : List String) : ℚ :=
  ((lines.foldl (fun a b => if a.length > b.length then a else b) "").length : ℚ) * (30 * (6 / 10))

/-- The label box geometry produced by the handler. -/
structure Box where
  width : ℤ
  height : ℤ
  left : ℤ
  top : ℤ
deriving DecidableEq

/-- The box-geometry computation of overlay.js lines 167-227, with the
output canvas fixed at 1200x628, fontSize 30, padding 10, line spacing 2
as in the source, and the measurement context abstracted to `μ`.
`overlayPixelShiftUp` is 13 in the source; it is kept as the parameter
`shiftUp` so the clamping can be stated for arbitrary shifts. -/
def computeBox (μ : String → MVal) (lines : List String) (shiftUp : ℚ) : Box :=
  let longestLineWidth : ℚ :=
    match longestLineWidthRaw μ lines with
    | some w => if w < 10 then charEstimate lines else w
    | none => charEstimate lines
  let maxBoxWidth : ℤ := 1200 - 20
  let calculatedBoxWidth : ℤ := ⌈longestLineWidth⌉ + 10 * 2
  let boxWidth : ℤ := min calculatedBoxWidth maxBoxWidth
  let totalTextHeight : ℤ := 30 * lines.length + 2 * max 0 ((lines.length : ℤ) - 1)
  let boxHeight : ℤ := totalTextHeight + 10 * 2
  let boxLeft : ℤ := jsRound ((1200 - (boxWidth : ℚ)) / 2)
  let boxTop : ℤ := jsRound (628 - (boxHeight : ℚ) - shiftUp)
  { width := boxWidth
    height := boxHeight
    left := max 0 (min boxLeft (1200 - boxWidth))
    top := max 0 (min boxTop (628 - boxHeight)) }

/-- One value of `global.imageCache`: the object stored by
`global.imageCache.set(imageId, { buffer, timestamp, caption })`. -/
structure CacheEntry where
  buffer : List ℕ
  timestamp : ℕ
  caption : String
deriving DecidableEq

/-- The store `global.imageCache`, a JS `Map` modelled as an insertion-ordered
association list. -/
abbrev Cache := List (String × CacheEntry)

/-- JS `Map.prototype.set`: replace in place when the key exists,
otherwise append at the end. -/
def mapSet : Cache → String → CacheEntry → Cache
  | [], k, v => [(k, v)]
  | (k', v') :: rest, k, v =>
    if k' = k then (k, v) :: rest else (k', v') :: mapSet rest k v

/-- JS `Map.prototype.get`, returning `none` for a missing key. -/
def mapGet : Cache → String → Option CacheEntry
  | [], _ => none
  | (k', v') :: rest, k => if k' = k then some v' else mapGet rest k

/-- JS `Map.prototype.delete` (by key; a JS map holds each key once). -/
def mapDelete : Cache → String → Cache
  | [], _ => []
  | (k', v') :: rest, k => if k' = k then rest else (k', v') :: mapDelete rest k

/-- The timestamp ordering used by the eviction sort
(`entries.sort((a, b) => a[1].timestamp - b[1].timestamp)`). -/
def tsLe (a b : String × CacheEntry) : Prop := a.2.timestamp ≤ b.2.timestamp

instance : DecidableRel tsLe := fun a b => Nat.decLe a.2.timestamp b.2.timestamp

/-- The cleanup step of overlay.js lines 346-352: when the map holds
more than 10 entries, sort the entries by creation timestamp (JS
`Array.prototype.sort` is stable; modelled by the stable
`List.insertionSort`) and delete all but the newest 10. -/
def evict (c : Cache) : Cache :=
  if 10 < c.length then
    ((List.insertionSort tsLe c).take (c.length - 10)).foldl
      (fun acc e => mapDelete acc e.1) c
  else c

/-- The cache-insertion path of overlay.js lines 338-352:
`set` followed by the capacity cleanup. -/
def putCache (c : Cache) (id : String) (e : CacheEntry) : Cache :=
  evict (mapSet c id e)

/-- A whole-process sequence of cache insertions starting from the
fresh (empty) map. -/
def runPuts (ps : List (String × CacheEntry)) : Cache :=
  ps.foldl (fun c p => putCache c p.1 p.2) []

/-- The parse result of `lambda-multipart-parser` as the handler uses
it: the content of the file with field name `image`/`file` (if any) and
the optional `caption`/`brandColor` fields. -/
structure MultipartResult where
  imageFile : Option (List ℕ)
  capField : Option String
  brandField : Option String

/-- The request event, reduced to the observations the handler makes of
it.  `parseOutcome` is the outcome of `parser.parse(event)` (the parser
is an external library); `bodyBytes` is the base64 decoding of
`event.body` on the fallback path, `none` when `event.body` is absent
(where `Buffer.from` throws). -/
structure Event where
  serveId : Option String
  isMultipart : Bool
  parseOutcome : Except String MultipartResult
  headerCaption : Option String
  headerBrandColor : Option String
  bodyBytes : Option (List ℕ)

/-- The effectful collaborators of the handler, as pure oracles:
sharp metadata probing, canvas text rendering (with its SVG fallback
bytes), sharp compositing, the md5-prefix hash, and the canvas
measurement context. -/
structure Oracles where
  measure : String → MVal
  sharpMetadata : List ℕ → Except String (ℕ × ℕ)
  textRender : List String → Box → Except String (List ℕ)
  svgFallback : List String → Box → List ℕ
  composite : List ℕ → List ℕ → Box → Except String (List ℕ)
  md5hex8 : List ℕ → String
  baseUrl : String

/-- A response body: a served image, a JSON error object
`{ error, message? }`, or the JSON success object. -/
inductive RespBody where
  | imageBody (bytes : List ℕ)
  | errorJson (error : String) (message : Option String)
  | successJson (imageUrl : String) (imageId : String) (size : ℕ) (capt : String)
deriving DecidableEq

/-- A structured handler response. -/
structure Response where
  statusCode : ℕ
  body : RespBody
deriving DecidableEq

/-- JS `x || d` for an optional string x and default d: the default replaces
both a missing and an empty (falsy) value. -/
def orDefault (v : Option String) (d : String) : String :=
  match v with
  | none => d
  | some s => if s = "" then d else s

/-- Extraction of caption, brand color and image bytes from the event
(overlay.js lines 132-153); `Except.error` models a thrown exception. -/
def ingest (ev : Event) : Except String (String × String × List ℕ) :=
  if ev.isMultipart then
    match ev.parseOutcome with
    | .error m => .error m
    | .ok r =>
      match r.imageFile with
      | none =>
        .error "Image file not found in multipart form data. Please use field name \x22image\x22 or \x22file\x22."
      | some buf => .ok (orDefault r.capField "Default Caption", orDefault r.brandField "#667eea", buf)
  else
    match ev.bodyBytes with
    | none => .error "The first argument must be of type string or an instance of Buffer, ArrayBuffer, or Array or an Array-like Object. Received null"
    | some buf =>
      .ok (orDefault ev.headerCaption "Default Caption", orDefault ev.headerBrandColor "#667eea", buf)

/-- The wrapped lines the handler computes for a caption
(`wrapText(measureContext, caption, outputWidth - 100)`). -/
def linesFor (or' : Oracles) (capt : String) : List String :=
  wrapText or'.measure capt (1200 - 100)

/-- The box geometry the handler computes for a caption
(shiftUp fixed at the source constant 13). -/
def boxFor (or' : Oracles) (capt : String) : Box :=
  computeBox or'.measure (linesFor or' capt) 13

/-- The text-layer bytes: the canvas rendering when it succeeds, else
the SVG fallback built in the inner `catch` (lines 241-303) — this step
never throws outward. -/
def textBufferFor (or' : Oracles) (capt : String) : List ℕ :=
  match or'.textRender (linesFor or' capt) (boxFor or' capt) with
  | .ok b => b
  | .error _ => or'.svgFallback (linesFor or' capt) (boxFor or' capt)

/-- The body of the handler `try` block (overlay.js lines 103-374):
cached-image serving, ingestion, validation, layout, rendering with the
canvas-to-SVG fallback, compositing, and cache insertion.  An
`Except.error` is an exception propagating to the outer `catch`. -/
def handlerAux (or' : Oracles) (cache : Cache) (ev : Event) (now : ℕ) :
    Except String (Response × Cache) := do
  match ev.serveId with
  | some qid =>
    match mapGet cache qid with
    | none => return ({ statusCode := 404, body := .errorJson "Image not found or expired" none }, cache)
    | some e => return ({ statusCode := 200, body := .imageBody e.buffer }, cache)
  | none =>
    let (capt, _brand, imageBuffer) ← ingest ev
    if imageBuffer.length = 0 then
      return ({ statusCode := 400, body := .errorJson "No image data provided" none }, cache)
    else
      let _meta ← or'.sharpMetadata imageBuffer
      match or'.composite imageBuffer (textBufferFor or' capt) (boxFor or' capt) with
      | .error m => .error ("Image processing failed: " ++ m)
      | .ok outputBuffer =>
        let imageId := toString now ++ "-" ++ or'.md5hex8 outputBuffer
        let cache' := putCache cache imageId ⟨outputBuffer, now, capt⟩
        let imageUrl := or'.baseUrl ++ "/.netlify/functions/overlay?serve=image&id=" ++ imageId
        return ({ statusCode := 200,
                  body := .successJson imageUrl imageId outputBuffer.length capt }, cache')

/-- The exported handler (overlay.js lines 102-387): the `try` body
with the `catch` block mapping any exception to a structured 500 JSON
response (lines 376-386). -/
def handler (or' : Oracles) (cache : Cache) (ev : Event) (now : ℕ) : Response × Cache :=
  match handlerAux or' cache ev now with
  | .ok r => r
  | .error m => ({ statusCode := 500, body := .errorJson "Image processing failed" (some m) }, cache)

/-- The word sequence of a string: its space-split pieces with empty
pieces (collapsed whitespace) removed. -/
def wordSeq (s : String) : List String := (jsSplit s).filter (fun w => w ≠ "")

/-- A concrete measurement model: 10 px per character. -/
def μten : String → MVal := fun s => .ok ((s.length : ℚ) * 10)

/-- A concrete measurement model wide enough to force one word per
greedy line: 600 px per character. -/
def μsix : String → MVal := fun s => .ok ((s.length : ℚ) * 600)

/-- A 20-word caption. -/
def capTwenty : String := "a a a a a a a a a a a a a a a a a a a a"

/-- The height formula of C5 as the spec words it, with line-height
multiplier 1.2: `lineCount*(fontSize*1.2) + spacing*(lineCount-1) +
2*verticalPadding`. -/
def specHeightTwelveTenths (n : ℕ) : ℚ :=
  (n : ℚ) * (30 * (12 / 10)) + 2 * ((n : ℚ) - 1) + 2 * 10

/-- The height formula the code actually implements: line height equals
the font size (multiplier 1), so
`lineCount*(30*1) + 2*max(0,lineCount-1) + 2*10`. -/
def specHeightUnit (n : ℕ) : ℤ :=
  (n : ℤ) * (30 * 1) + 2 * max 0 ((n : ℤ) - 1) + 2 * 10

/-- The width formula of C6 as the spec words it: the ceiling of the
re-measured longest line width — replaced by the estimate
`longestLineCharacterCount * fontSize * 0.6` when that measurement is
degraded (below the sanity floor 10 or non-numeric) — plus twice the
horizontal padding, capped at `outputWidth - margin`. -/
def specBoxWidth (μ : String → MVal) (lines : List String) : ℤ :=
  let longest : ℚ :=
    match longestLineWidthRaw μ lines with
    | some w => if w < 10 then charEstimate lines else w
    | none => charEstimate lines
  min (⌈longest⌉ + 2 * 10) (1200 - 20)

/-- An 11-put sequence with distinct ids and increasing timestamps. -/
def psEleven : List (String × CacheEntry) :=
  [("k0", ⟨[0], 0, "c0"⟩), ("k1", ⟨[1], 1, "c1"⟩), ("k2", ⟨[2], 2, "c2"⟩),
   ("k3", ⟨[3], 3, "c3"⟩), ("k4", ⟨[4], 4, "c4"⟩), ("k5", ⟨[5], 5, "c5"⟩),
   ("k6", ⟨[6], 6, "c6"⟩), ("k7", ⟨[7], 7, "c7"⟩), ("k8", ⟨[8], 8, "c8"⟩),
   ("k9", ⟨[9], 9, "c9"⟩), ("k10", ⟨[10], 10, "c10"⟩)]

/-- Benign oracles for concrete handler runs. -/
def orBase : Oracles :=
  { measure := fun _ => .nan
    sharpMetadata := fun _ => .ok (100, 100)
    textRender := fun _ _ => .ok [1]
    svgFallback := fun _ _ => [2]
    composite := fun _ _ _ => .ok [3]
    md5hex8 := fun _ => "deadbeef"
    baseUrl := "http://localhost" }

/-- A multipart request whose parse succeeded but carried no image
file part: image bytes are missing (not merely empty). -/
def evNoFile : Event :=
  { serveId := none
    isMultipart := true
    parseOutcome := .ok { imageFile := none, capField := some "Hi", brandField := none }
    headerCaption := none
    headerBrandColor := none
    bodyBytes := none }

/-- A raw-body request with present but empty image bytes. -/
def evEmpty : Event :=
  { serveId := none
    isMultipart := false
    parseOutcome := .error "unused"
    headerCaption := none
    headerBrandColor := none
    bodyBytes := some [] }

example : jsSplit "aa bb" = ["aa", "bb"] := by decide

example : jsSplit "" = [""] := by decide

example : jsSplit " " = ["", ""] := by decide

example : joinSp ["aa", "bb"] = "aa bb" := by decide

example : wrapText (fun _ => .nan) "a b c" 100 = ["a", "b c"] := by decide

example : wrapText (fun s => .ok (s.length * 10 : ℚ)) "hello" 100 = ["hello"] := by
  with_unfolding_all decide

example :
    wrapText (fun s => .ok (s.length * 10 : ℚ)) "aa bb cc dd" 60 = ["aa bb", "cc dd"] := by
  with_unfolding_all decide

example :
    computeBox (fun s => .ok (s.length * 10 : ℚ)) ["Hello"] 13 =
      { width := 70, height := 50, left := 565, top := 565 } := by
  with_unfolding_all decide

theorem splitChars_ne_nil (l : List Char) : splitChars l ≠ [] := by
  cases l with
  | nil => simp [splitChars]
  | cons c cs =>
    simp only [splitChars]
    split
    · simp
    · cases h : splitChars cs <;> simp

theorem jsSplit_ne_nil (s : String) : jsSplit s ≠ [] := by
  simpa [jsSplit] using splitChars_ne_nil s.data

theorem mk_cons_eq (c : Char) (l : List Char) :
    String.mk (c :: l) = String.mk [c] ++ String.mk l := rfl

theorem joinSp_cons (a : String) (l : List String) (h : l ≠ []) :
    joinSp (a :: l) = a ++ " " ++ joinSp l := by
  cases l with
  | nil => exact absurd rfl h
  | cons b m => rfl

theorem joinSp_append (l1 l2 : List String) (h1 : l1 ≠ []) (h2 : l2 ≠ []) :
    joinSp (l1 ++ l2) = joinSp l1 ++ " " ++ joinSp l2 := by
  induction l1 with
  | nil => exact absurd rfl h1
  | cons a l1 ih =>
    cases l1 with
    | nil => simpa using joinSp_cons a l2 h2
    | cons b m =>
      have hne : (b :: m) ++ l2 ≠ [] := by simp
      calc joinSp ((a :: b :: m) ++ l2)
          = a ++ " " ++ joinSp ((b :: m) ++ l2) := by
            rw [List.cons_append, joinSp_cons a _ hne]
        _ = a ++ " " ++ (joinSp (b :: m) ++ " " ++ joinSp l2) := by
            rw [ih (by simp)]
        _ = (a ++ " " ++ joinSp (b :: m)) ++ " " ++ joinSp l2 := by
            simp [String.append_assoc]
        _ = joinSp (a :: b :: m) ++ " " ++ joinSp l2 := by
            rw [joinSp_cons a (b :: m) (by simp)]

theorem joinSp_splitChars (l : List Char) :
    joinSp ((splitChars l).map String.mk) = String.mk l := by
  induction l with
  | nil => rfl
  | cons c cs ih =>
    by_cases hc : c = ' '
    · subst hc
      rw [show splitChars (' ' :: cs) = [] :: splitChars cs from by simp [splitChars],
        List.map_cons, joinSp_cons _ _ (by simpa using splitChars_ne_nil cs), ih]
      rfl
    · simp only [splitChars, if_neg hc]
      cases h : splitChars cs with
      | nil => exact absurd h (splitChars_ne_nil cs)
      | cons w ws =>
        have ih' : joinSp (String.mk w :: ws.map String.mk) = String.mk cs := by
          rw [← List.map_cons, ← h]; exact ih
        cases ws with
        | nil =>
          simp only [List.map_cons, List.map_nil, joinSp] at ih' ⊢
          rw [mk_cons_eq, ih', ← mk_cons_eq]
        | cons v vs =>
          simp only [List.map_cons] at ih' ⊢
          rw [joinSp_cons _ _ (by simp)]
          rw [joinSp_cons _ _ (by simp)] at ih'
          rw [mk_cons_eq c w, String.append_assoc, String.append_assoc,
            ← String.append_assoc (String.mk w), ih', ← mk_cons_eq]

theorem joinSp_jsSplit (s : String) : joinSp (jsSplit s) = s := by
  simpa [jsSplit] using joinSp_splitChars s.data

theorem greedyGo_ne_nil (μ : String → MVal) (W : ℚ) (ws : List String) (cur : String) :
    greedyGo μ W cur ws ≠ [] := by
  induction ws generalizing cur with
  | nil => simp [greedyGo]
  | cons w ws ih =>
    simp only [greedyGo]
    split
    · exact ih _
    · simp

theorem joinSp_greedyGo (μ : String → MVal) (W : ℚ) (ws : List String) (cur : String) :
    joinSp (greedyGo μ W cur ws) = joinSp (cur :: ws) := by
  induction ws generalizing cur with
  | nil => rfl
  | cons w ws ih =>
    simp only [greedyGo]
    split
    · rw [ih]
      cases ws with
      | nil => rfl
      | cons v vs =>
        rw [joinSp_cons _ _ (by simp), joinSp_cons cur (w :: v :: vs) (by simp),
          joinSp_cons w (v :: vs) (by simp)]
        simp [String.append_assoc]
    · rw [joinSp_cons cur _ (greedyGo_ne_nil μ W ws w), ih,
        joinSp_cons cur (w :: ws) (by simp)]

theorem joinSp_greedy (μ : String → MVal) (W : ℚ) (words : List String) (h : words ≠ []) :
    joinSp (greedy μ W words) = joinSp words := by
  cases words with
  | nil => exact absurd rfl h
  | cons a l => simpa [greedy] using joinSp_greedyGo μ W l a

theorem greedy_ne_nil (μ : String → MVal) (W : ℚ) (words : List String) :
    greedy μ W words ≠ [] := by
  cases words with
  | nil => simp [greedy, greedyGo]
  | cons a l => simpa [greedy] using greedyGo_ne_nil μ W l a

theorem joinSp_splitAt2 (words : List String) (i : ℕ) (h1 : 0 < i) (h2 : i < words.length) :
    joinSp (splitAt2 words i) = joinSp words := by
  have ht : words.take i ≠ [] := by
    intro h
    have := congrArg List.length h
    simp only [List.length_take, List.length_nil] at this
    omega
  have hd : words.drop i ≠ [] := by
    intro h
    have := congrArg List.length h
    simp only [List.length_drop, List.length_nil] at this
    omega
  calc joinSp (splitAt2 words i)
      = joinSp (words.take i) ++ " " ++ joinSp (words.drop i) := rfl
    _ = joinSp (words.take i ++ words.drop i) := (joinSp_append _ _ ht hd).symm
    _ = joinSp words := by rw [List.take_append_drop]

theorem bestStep_snd (μ : String → MVal) (W : ℚ) (words : List String)
    (st : Option ℚ × ℕ) (i : ℕ) :
    (bestStep μ W words st i).2 = st.2 ∨ (bestStep μ W words st i).2 = i := by
  unfold bestStep
  cases μ (joinSp (words.take i)) with
  | nan => simp
  | ok w1 =>
    cases μ (joinSp (words.drop i)) with
    | nan => simp
    | ok w2 =>
      dsimp only
      split
      · cases st.1 with
        | none => simp
        | some bb =>
          dsimp only
          split <;> simp
      · simp

theorem foldl_bestStep_snd (μ : String → MVal) (W : ℚ) (words : List String)
    (l : List ℕ) (st : Option ℚ × ℕ) :
    (l.foldl (bestStep μ W words) st).2 = st.2 ∨
      (l.foldl (bestStep μ W words) st).2 ∈ l := by
  induction l generalizing st with
  | nil => simp
  | cons i l ih =>
    simp only [List.foldl_cons]
    rcases ih (bestStep μ W words st i) with h | h
    · rcases bestStep_snd μ W words st i with h2 | h2
      · left; rw [h, h2]
      · right; rw [h, h2]; simp
    · right; simp [h]

theorem candList_bounds {n i : ℕ} (h4 : 4 ≤ n) (hi : i ∈ candList n) : 1 ≤ i ∧ i < n := by
  unfold candList at hi
  rw [List.mem_range'_1] at hi
  omega

theorem wrapText_cases (μ : String → MVal) (text : String) (W : ℚ) :
    wrapText μ text W = [text] ∨
      (∃ i, 0 < i ∧ i < (jsSplit text).length ∧
        wrapText μ text W = splitAt2 (jsSplit text) i) ∨
      wrapText μ text W = greedy μ W (jsSplit text) := by
  simp only [wrapText]
  by_cases h1 : (canMeasureOf μ text && mleB (μ text) W) = true
  · rw [if_pos h1]; left; rfl
  · rw [if_neg h1]
    by_cases h2 : 4 ≤ (jsSplit text).length
    · rw [if_pos h2]
      by_cases h3 : canMeasureOf μ text = true
      · rw [if_pos h3]
        set best := (candList (jsSplit text).length).foldl
          (bestStep μ W (jsSplit text)) (none, (jsSplit text).length / 2) with hbest
        have hmem : best.2 = (jsSplit text).length / 2 ∨ best.2 ∈ candList (jsSplit text).length :=
          foldl_bestStep_snd μ W (jsSplit text) _ _
        have hb : 0 < best.2 ∧ best.2 < (jsSplit text).length := by
          rcases hmem with h | h
          · omega
          · have := candList_bounds h2 h
            omega
        by_cases h4 : (mleB (μ (joinSp ((jsSplit text).take best.2))) W &&
            mleB (μ (joinSp ((jsSplit text).drop best.2))) W) = true
        · rw [if_pos h4]
          right; left
          exact ⟨best.2, hb.1, hb.2, rfl⟩
        · rw [if_neg h4]
          right; right; rfl
      · rw [if_neg h3]
        right; left
        exact ⟨(jsSplit text).length / 2, by omega, by omega, rfl⟩
    · rw [if_neg h2]
      by_cases h5 : (!canMeasureOf μ text && decide (2 ≤ (jsSplit text).length)) = true
      · rw [if_pos h5]
        right; left
        have h2' : 2 ≤ (jsSplit text).length := by
          simp only [Bool.and_eq_true, decide_eq_true_eq] at h5
          exact h5.2
        exact ⟨(jsSplit text).length / 2, by omega, by omega, rfl⟩
      · rw [if_neg h5]
        right; right; rfl

theorem wrapText_join (μ : String → MVal) (text : String) (W : ℚ) :
    joinSp (wrapText μ text W) = text := by
  rcases wrapText_cases μ text W with h | ⟨i, h1, h2, h⟩ | h
  · rw [h]; rfl
  · rw [h, joinSp_splitAt2 _ _ h1 h2, joinSp_jsSplit]
  · rw [h, joinSp_greedy _ _ _ (jsSplit_ne_nil text), joinSp_jsSplit]

theorem wrapText_ne_nil (μ : String → MVal) (text : String) (W : ℚ) :
    wrapText μ text W ≠ [] := by
  rcases wrapText_cases μ text W with h | ⟨i, _, _, h⟩ | h
  · simp [h]
  · rw [h]; simp [splitAt2]
  · rw [h]; exact greedy_ne_nil μ W (jsSplit text)

/-- C2: for every caption string and every maxWidth, `wrapText` returns
at least one line, and joining the returned lines with single spaces,
after collapsing whitespace, reproduces the word sequence of the
caption without loss or duplication. -/
theorem wrapText_preserves_word_sequence (μ : String → MVal) (text : String) (W : ℚ) :
    1 ≤ (wrapText μ text W).length ∧
      wordSeq (joinSp (wrapText μ text W)) = wordSeq text := by
  constructor
  · exact List.length_pos.mpr (wrapText_ne_nil μ text W)
  · rw [wrapText_join]

theorem bestStep_eq (μ : String → MVal) (W : ℚ) (words : List String)
    (st : Option ℚ × ℕ) (i : ℕ) :
    bestStep μ W words st i =
      if fitsB μ W words i then
        match st.1 with
        | none => (some (balQ μ words i), i)
        | some bb => if balQ μ words i < bb then (some (balQ μ words i), i) else st
      else st := by
  unfold bestStep fitsB balQ mleB
  cases μ (joinSp (words.take i)) with
  | nan => simp
  | ok w1 =>
    cases μ (joinSp (words.drop i)) with
    | nan => simp
    | ok w2 =>
      dsimp only
      by_cases h : w1 ≤ W ∧ w2 ≤ W
      · rw [if_pos h, if_pos (by simp [h.1, h.2])]
      · rw [if_neg h, if_neg (by simp only [Bool.and_eq_true, decide_eq_true_eq]; exact h)]

theorem foldl_bestStep_none (μ : String → MVal) (W : ℚ) (words : List String)
    (l : List ℕ) (s0 : ℕ) (h : ∀ i ∈ l, fitsB μ W words i = false) :
    l.foldl (bestStep μ W words) (none, s0) = (none, s0) := by
  induction l with
  | nil => rfl
  | cons i l ih =>
    simp only [List.foldl_cons]
    rw [bestStep_eq, h i (by simp)]
    simp only [Bool.false_eq_true, if_false]
    exact ih fun j hj => h j (by simp [hj])

theorem foldl_bestStep_some (μ : String → MVal) (W : ℚ) (words : List String)
    (l : List ℕ) :
    ∀ (b0 : ℚ) (s0 : ℕ), fitsB μ W words s0 = true → balQ μ words s0 = b0 →
      ∃ s1, l.foldl (bestStep μ W words) (some b0, s0) = (some (balQ μ words s1), s1) ∧
        fitsB μ W words s1 = true ∧ (s1 = s0 ∨ s1 ∈ l) ∧ balQ μ words s1 ≤ b0 ∧
        ∀ j ∈ l, fitsB μ W words j = true → balQ μ words s1 ≤ balQ μ words j := by
  induction l with
  | nil =>
    intro b0 s0 hf hb
    exact ⟨s0, by rw [hb]; rfl, hf, Or.inl rfl, le_of_eq hb, by simp⟩
  | cons i l ih =>
    intro b0 s0 hf hb
    simp only [List.foldl_cons]
    rw [bestStep_eq]
    by_cases hfi : fitsB μ W words i = true
    · rw [if_pos hfi]
      dsimp only
      by_cases hlt : balQ μ words i < b0
      · rw [if_pos hlt]
        obtain ⟨s1, heq, hf1, hmem, hle, hmin⟩ := ih (balQ μ words i) i hfi rfl
        refine ⟨s1, heq, hf1, ?_, le_trans hle (le_of_lt hlt), ?_⟩
        · rcases hmem with h | h <;> exact Or.inr (by simp [h])
        · intro j hj hfj
          rcases List.mem_cons.mp hj with h | h
          · subst h; exact hle
          · exact hmin j h hfj
      · rw [if_neg hlt]
        obtain ⟨s1, heq, hf1, hmem, hle, hmin⟩ := ih b0 s0 hf hb
        refine ⟨s1, heq, hf1, ?_, hle, ?_⟩
        · rcases hmem with h | h
          · exact Or.inl h
          · exact Or.inr (by simp [h])
        · intro j hj hfj
          rcases List.mem_cons.mp hj with h | h
          · subst h; exact le_trans hle (not_lt.mp hlt)
          · exact hmin j h hfj
    · rw [if_neg hfi]
      obtain ⟨s1, heq, hf1, hmem, hle, hmin⟩ := ih b0 s0 hf hb
      refine ⟨s1, heq, hf1, ?_, hle, ?_⟩
      · rcases hmem with h | h
        · exact Or.inl h
        · exact Or.inr (by simp [h])
      · intro j hj hfj
        rcases List.mem_cons.mp hj with h | h
        · subst h; exact absurd hfj hfi
        · exact hmin j h hfj

theorem foldl_bestStep_start (μ : String → MVal) (W : ℚ) (words : List String)
    (l : List ℕ) :
    ∀ s0 : ℕ, (∃ i ∈ l, fitsB μ W words i = true) →
      ∃ s1, l.foldl (bestStep μ W words) (none, s0) = (some (balQ μ words s1), s1) ∧
        fitsB μ W words s1 = true ∧ s1 ∈ l ∧
        ∀ j ∈ l, fitsB μ W words j = true → balQ μ words s1 ≤ balQ μ words j := by
  induction l with
  | nil => intro s0 h; simp at h
  | cons i l ih =>
    intro s0 h
    simp only [List.foldl_cons]
    rw [bestStep_eq]
    by_cases hfi : fitsB μ W words i = true
    · rw [if_pos hfi]
      dsimp only
      obtain ⟨s1, heq, hf1, hmem, hle, hmin⟩ :=
        foldl_bestStep_some μ W words l (balQ μ words i) i hfi rfl
      refine ⟨s1, heq, hf1, ?_, ?_⟩
      · rcases hmem with h1 | h1 <;> simp [h1]
      · intro j hj hfj
        rcases List.mem_cons.mp hj with h1 | h1
        · subst h1; exact hle
        · exact hmin j h1 hfj
    · rw [if_neg hfi]
      obtain ⟨i', hi', hfi'⟩ := h
      have hi'' : i' ∈ l := by
        rcases List.mem_cons.mp hi' with h1 | h1
        · subst h1; exact absurd hfi' hfi
        · exact h1
      obtain ⟨s1, heq, hf1, hmem, hmin⟩ := ih s0 ⟨i', hi'', hfi'⟩
      refine ⟨s1, heq, hf1, by simp [hmem], ?_⟩
      intro j hj hfj
      rcases List.mem_cons.mp hj with h1 | h1
      · subst h1; exact absurd hfj hfi
      · exact hmin j h1 hfj

theorem mid_mem_candList {n : ℕ} (h4 : 4 ≤ n) : n / 2 ∈ candList n := by
  unfold candList
  rw [List.mem_range'_1]
  omega

theorem candList_near_mid {n i : ℕ} (hi : i ∈ candList n) :
    n / 2 - 2 ≤ i ∧ i ≤ n / 2 + 2 := by
  unfold candList at hi
  rw [List.mem_range'_1] at hi
  omega

/-- Shared helper: under degraded measurement a caption of at least two
words is split at the word-count midpoint, for any maxWidth. -/
theorem wrapText_degraded_eq (μ : String → MVal) (text : String) (W : ℚ)
    (hcm : canMeasureOf μ text = false) (h2 : 2 ≤ (jsSplit text).length) :
    wrapText μ text W = splitAt2 (jsSplit text) ((jsSplit text).length / 2) := by
  simp only [wrapText]
  rw [if_neg (by simp [hcm])]
  by_cases h4 : 4 ≤ (jsSplit text).length
  · rw [if_pos h4, if_neg (by simp [hcm])]
  · rw [if_neg h4, if_pos (by simp [hcm, h2])]

/-- Shared helper: under degraded measurement a one-word caption goes
through the greedy fallback and stays a single line. -/
theorem wrapText_degraded_single (μ : String → MVal) (text : String) (W : ℚ)
    (hcm : canMeasureOf μ text = false) (h1 : (jsSplit text).length = 1) :
    (wrapText μ text W).length = 1 := by
  obtain ⟨w', hw⟩ := List.length_eq_one.mp h1
  simp only [wrapText]
  rw [if_neg (by simp [hcm]), if_neg (by omega), if_neg (by simp [hcm]; omega)]
  rw [hw]
  rfl

/-- C7: for a caption with at least 2 words, if the metrics provider
reports a width below the sanity floor or a non-numeric value for the
whole caption, `wrapText` treats metrics as unreliable and splits at
the word-count midpoint, without any width comparisons (the result is
independent of maxWidth and of measured widths), returning a result
rather than failing. -/
theorem wrapText_degraded_midpoint_split (μ : String → MVal) (text : String) (W : ℚ)
    (hcm : canMeasureOf μ text = false) (h2 : 2 ≤ (jsSplit text).length) :
    wrapText μ text W = splitAt2 (jsSplit text) ((jsSplit text).length / 2) :=
  wrapText_degraded_eq μ text W hcm h2

/-- Witness for C7 at a concrete degraded provider and caption. -/
theorem wrapText_degraded_midpoint_split_witness :
    wrapText (fun _ => .nan) "hello world" 1100 =
      splitAt2 (jsSplit "hello world") ((jsSplit "hello world").length / 2) :=
  wrapText_degraded_midpoint_split (fun _ => .nan) "hello world" 1100 (by decide) (by decide)

/-- C9: under degraded measurement `wrapText` returns exactly 2 lines
for every caption of at least 2 words — regardless of maxWidth, so even
when the caption would fit on one line, and however many words it has —
and a single line only for a caption that splits into one word. -/
theorem wrapText_degraded_two_lines (μ : String → MVal) (text : String) (W : ℚ)
    (hcm : canMeasureOf μ text = false) :
    (wrapText μ text W).length = if 2 ≤ (jsSplit text).length then 2 else 1 := by
  by_cases h2 : 2 ≤ (jsSplit text).length
  · rw [if_pos h2, wrapText_degraded_eq μ text W hcm h2]
    rfl
  · rw [if_neg h2]
    have h1 : (jsSplit text).length = 1 := by
      have := List.length_pos.mpr (jsSplit_ne_nil text)
      omega
    exact wrapText_degraded_single μ text W hcm h1

/-- Witness for C9: a 3-word caption that would fit on one line still
comes back as exactly 2 lines when measurement reports width 0. -/
theorem wrapText_degraded_two_lines_witness :
    (wrapText (fun _ => .ok 0) "a b c" 1100).length =
      if 2 ≤ (jsSplit "a b c").length then 2 else 1 :=
  wrapText_degraded_two_lines (fun _ => .ok 0) "a b c" 1100 (by with_unfolding_all decide)

/-- C3: for a caption of at least 4 words whose whole-caption measured
width is reliable (at or above the sanity floor 10) but exceeds
maxWidth, `wrapText` searches candidate split points within ±2 words of
the word-count midpoint; when some candidate yields two individually
fitting lines it returns a fitting candidate split of minimal absolute
pixel-width difference, and when no candidate yields two fitting lines
it falls back to greedy wrapping. -/
theorem wrapText_balanced_branch (μ : String → MVal) (text : String) (W w : ℚ)
    (hok : μ text = .ok w) (hfloor : ¬ w < 10) (hover : W < w)
    (h4 : 4 ≤ (jsSplit text).length) :
    ((∃ i ∈ candList (jsSplit text).length, fitsB μ W (jsSplit text) i = true) →
      ∃ i ∈ candList (jsSplit text).length,
        ((jsSplit text).length / 2 - 2 ≤ i ∧ i ≤ (jsSplit text).length / 2 + 2) ∧
        fitsB μ W (jsSplit text) i = true ∧
        (∀ j ∈ candList (jsSplit text).length, fitsB μ W (jsSplit text) j = true →
          balQ μ (jsSplit text) i ≤ balQ μ (jsSplit text) j) ∧
        wrapText μ text W = splitAt2 (jsSplit text) i) ∧
    ((∀ i ∈ candList (jsSplit text).length, fitsB μ W (jsSplit text) i = false) →
      wrapText μ text W = greedy μ W (jsSplit text)) := by
  have hcm : canMeasureOf μ text = true := by
    unfold canMeasureOf
    rw [hok]
    simp [hfloor]
  have hfast : (canMeasureOf μ text && mleB (μ text) W) = false := by
    unfold mleB
    rw [hok]
    simp [not_le.mpr hover]
  constructor
  · intro hex
    obtain ⟨s1, heq, hf1, hmem, hmin⟩ :=
      foldl_bestStep_start μ W (jsSplit text) (candList (jsSplit text).length)
        ((jsSplit text).length / 2) hex
    refine ⟨s1, hmem, candList_near_mid hmem, hf1, hmin, ?_⟩
    simp only [wrapText]
    rw [if_neg (by simp [hfast]), if_pos h4, if_pos hcm, heq]
    have hcond : (mleB (μ (joinSp ((jsSplit text).take s1))) W &&
        mleB (μ (joinSp ((jsSplit text).drop s1))) W) = true := hf1
    rw [if_pos hcond]
    rfl
  · intro hall
    have heq := foldl_bestStep_none μ W (jsSplit text) (candList (jsSplit text).length)
      ((jsSplit text).length / 2) hall
    simp only [wrapText]
    rw [if_neg (by simp [hfast]), if_pos h4, if_pos hcm, heq]
    have hcond : (mleB (μ (joinSp ((jsSplit text).take ((jsSplit text).length / 2)))) W &&
        mleB (μ (joinSp ((jsSplit text).drop ((jsSplit text).length / 2)))) W) = false :=
      hall _ (mid_mem_candList h4)
    rw [if_neg (by simp [hcond])]

/-- Witness for C3 at a concrete 4-word caption where the midpoint
candidate fits both lines. -/
theorem wrapText_balanced_branch_witness :
    ((∃ i ∈ candList (jsSplit "aa bb cc dd").length,
        fitsB μten 60 (jsSplit "aa bb cc dd") i = true) →
      ∃ i ∈ candList (jsSplit "aa bb cc dd").length,
        ((jsSplit "aa bb cc dd").length / 2 - 2 ≤ i ∧
          i ≤ (jsSplit "aa bb cc dd").length / 2 + 2) ∧
        fitsB μten 60 (jsSplit "aa bb cc dd") i = true ∧
        (∀ j ∈ candList (jsSplit "aa bb cc dd").length,
          fitsB μten 60 (jsSplit "aa bb cc dd") j = true →
          balQ μten (jsSplit "aa bb cc dd") i ≤ balQ μten (jsSplit "aa bb cc dd") j) ∧
        wrapText μten "aa bb cc dd" 60 = splitAt2 (jsSplit "aa bb cc dd") i) ∧
    ((∀ i ∈ candList (jsSplit "aa bb cc dd").length,
        fitsB μten 60 (jsSplit "aa bb cc dd") i = false) →
      wrapText μten "aa bb cc dd" 60 = greedy μten 60 (jsSplit "aa bb cc dd")) :=
  wrapText_balanced_branch μten "aa bb cc dd" 60 110
    (by with_unfolding_all decide) (by with_unfolding_all decide)
    (by with_unfolding_all decide) (by decide)

theorem clampW_le (A L : ℤ) :
    max 0 (min L (1200 - min A (1200 - 20))) + min A (1200 - 20) ≤ 1200 := by
  omega

theorem clampH_le (n T : ℤ) (h0 : 0 ≤ n) (h : n ≤ 19) :
    max 0 (min T (628 - (30 * n + 2 * max 0 (n - 1) + 10 * 2))) +
      (30 * n + 2 * max 0 (n - 1) + 10 * 2) ≤ 628 := by
  omega

/-- C1 (amended): after clamping, the box geometry always satisfies
`0 ≤ left`, `left + width ≤ outputWidth`, and `0 ≤ top`, for every
wrapped-lines output, measurement model and shiftUp value; but
`top + height ≤ outputHeight` only holds when the (uncapped) box height
fits the canvas, i.e. for at most 19 lines — a caption wrapping to 20
or more lines yields a box height above 628 that still overflows the
canvas bottom after top is clamped to 0. -/
theorem computeBox_clamped (μ : String → MVal) (lines : List String) (shiftUp : ℚ) :
    0 ≤ (computeBox μ lines shiftUp).left ∧
      (computeBox μ lines shiftUp).left + (computeBox μ lines shiftUp).width ≤ 1200 ∧
      0 ≤ (computeBox μ lines shiftUp).top ∧
      (lines.length ≤ 19 →
        (computeBox μ lines shiftUp).top + (computeBox μ lines shiftUp).height ≤ 628) := by
  refine ⟨?_, ?_, ?_, ?_⟩
  · simp only [computeBox]
    exact le_max_left 0 _
  · simp only [computeBox]
    exact clampW_le _ _
  · simp only [computeBox]
    exact le_max_left 0 _
  · intro hn
    simp only [computeBox]
    exact clampH_le _ _ (Int.ofNat_nonneg _) (by exact_mod_cast hn)

/-- Witness for C1 (amended) on a concrete single-line output. -/
theorem computeBox_clamped_witness :
    (computeBox (fun _ => .nan) ["Hello"] 13).top +
      (computeBox (fun _ => .nan) ["Hello"] 13).height ≤ 628 :=
  (computeBox_clamped (fun _ => .nan) ["Hello"] 13).2.2.2 (by decide)

/-- C1 counterexample: the 20-line wrapped output of `capTwenty` (at
the handler's maxWidth 1100 and shiftUp 13) produces a box with
`top + height = 658 > 628`: the claimed bound fails for arbitrarily
long captions because the box height is never capped. -/
theorem computeBox_overflow_counterexample :
    ¬ ((computeBox μsix (wrapText μsix capTwenty (1200 - 100)) 13).top +
        (computeBox μsix (wrapText μsix capTwenty (1200 - 100)) 13).height ≤ 628) := by
  with_unfolding_all decide

/-- C5 counterexample: for the single-line wrapped output of caption
"Hello" the computed box height is 50 (= 1*30 + 0 + 2*10), not the 56
(= 1*(30*1.2) + 0 + 2*10) that the 1.2-multiplier formula predicts. -/
theorem boxHeight_multiplier_counterexample :
    ((computeBox μten (wrapText μten "Hello" (1200 - 100)) 13).height : ℚ) ≠
      specHeightTwelveTenths (wrapText μten "Hello" (1200 - 100)).length := by
  with_unfolding_all decide

/-- C5 (amended): for every wrapped-lines output the computed box
height equals `lineCount * lineHeightPx + interLineSpacingPx *
(lineCount - 1) + 2 * verticalPaddingPx` with
`lineHeightPx = fontSizePx * 1` — the code sets the per-line text
height to the font size itself, not fontSize * 1.2. -/
theorem computeBox_height_formula (μ : String → MVal) (lines : List String) (shiftUp : ℚ) :
    (computeBox μ lines shiftUp).height = specHeightUnit lines.length := by
  simp only [computeBox, specHeightUnit]
  ring

/-- C6: for every wrapped-lines output the computed box width equals
`ceil(longestLineWidthPx) + 2*horizontalPaddingPx` with the
character-count estimate substituted when measurement is degraded, and
it is capped at `outputWidth - margin = 1180`, so the box never exceeds
the canvas width. -/
theorem computeBox_width_formula (μ : String → MVal) (lines : List String) (shiftUp : ℚ) :
    (computeBox μ lines shiftUp).width = specBoxWidth μ lines ∧
      (computeBox μ lines shiftUp).width ≤ 1200 - 20 := by
  constructor
  · simp only [computeBox, specBoxWidth]
    omega
  · simp only [computeBox]
    exact min_le_right _ _

theorem mapSet_append (c : Cache) (k : String) (v : CacheEntry)
    (h : k ∉ c.map Prod.fst) : mapSet c k v = c ++ [(k, v)] := by
  induction c with
  | nil => rfl
  | cons p rest ih =>
    obtain ⟨k', v'⟩ := p
    simp only [List.map_cons, List.mem_cons] at h
    push_neg at h
    simp only [mapSet]
    rw [if_neg (fun he => h.1 he.symm), ih h.2]
    rfl

theorem mapGet_eq_none (c : Cache) (k : String) (h : k ∉ c.map Prod.fst) :
    mapGet c k = none := by
  induction c with
  | nil => rfl
  | cons p rest ih =>
    obtain ⟨k', v'⟩ := p
    simp only [List.map_cons, List.mem_cons] at h
    push_neg at h
    simp only [mapGet]
    rw [if_neg (fun he => h.1 he.symm)]
    exact ih h.2

theorem mapGet_of_mem (c : Cache) (p : String × CacheEntry)
    (hp : p ∈ c) (hnd : (c.map Prod.fst).Nodup) : mapGet c p.1 = some p.2 := by
  induction c with
  | nil => simp at hp
  | cons q rest ih =>
    obtain ⟨k', v'⟩ := q
    simp only [List.map_cons, List.nodup_cons] at hnd
    rcases List.mem_cons.mp hp with h | h
    · subst h
      simp [mapGet]
    · simp only [mapGet]
      rw [if_neg, ih h hnd.2]
      intro he
      exact hnd.1 (he ▸ List.mem_map_of_mem Prod.fst h)

theorem foldl_mapDelete_take (c : Cache) :
    ∀ k : ℕ, ((c.take k).foldl (fun acc e => mapDelete acc e.1) c) = c.drop k := by
  induction c with
  | nil => intro k; simp
  | cons p rest ih =>
    intro k
    cases k with
    | zero => simp
    | succ k =>
      obtain ⟨k1, v1⟩ := p
      simp only [List.take_succ_cons, List.foldl_cons, List.drop_succ_cons]
      have hdel : mapDelete ((k1, v1) :: rest) k1 = rest := by simp [mapDelete]
      rw [hdel]
      exact ih k

theorem putCache_fresh (c : Cache) (id : String) (e : CacheEntry)
    (hid : id ∉ c.map Prod.fst)
    (hsort : c.Pairwise (fun a b => a.2.timestamp < b.2.timestamp))
    (hts : ∀ q ∈ c, q.2.timestamp < e.timestamp) :
    putCache c id e = (c ++ [(id, e)]).drop ((c.length + 1) - 10) := by
  unfold putCache
  rw [mapSet_append c id e hid]
  unfold evict
  by_cases h : 10 < (c ++ [(id, e)]).length
  · rw [if_pos h]
    have hsorted : (c ++ [(id, e)]).Pairwise (fun a b => a.2.timestamp < b.2.timestamp) := by
      rw [List.pairwise_append]
      refine ⟨hsort, List.pairwise_singleton _ _, fun a ha b hb => ?_⟩
      simp only [List.mem_singleton] at hb
      subst hb
      exact hts a ha
    have hsorted' : List.Sorted tsLe (c ++ [(id, e)]) :=
      hsorted.imp fun h => le_of_lt h
    rw [List.Sorted.insertionSort_eq hsorted', foldl_mapDelete_take]
    simp [List.length_append]
  · rw [if_neg h]
    have h0 : (c.length + 1) - 10 = 0 := by
      simp only [List.length_append, List.length_cons, List.length_nil] at h
      omega
    rw [h0, List.drop_zero]

theorem runPuts_append (ps : List (String × CacheEntry)) (p : String × CacheEntry) :
    runPuts (ps ++ [p]) = putCache (runPuts ps) p.1 p.2 := by
  simp [runPuts, List.foldl_append]

theorem runPuts_eq_drop (ps : List (String × CacheEntry))
    (hnd : (ps.map Prod.fst).Nodup)
    (hsort : ps.Pairwise (fun a b => a.2.timestamp < b.2.timestamp)) :
    runPuts ps = ps.drop (ps.length - 10) := by
  induction ps using List.reverseRecOn with
  | nil => rfl
  | append_singleton qs p ih =>
    rw [List.map_append] at hnd
    have hndq : (qs.map Prod.fst).Nodup := (List.nodup_append.mp hnd).1
    rw [List.pairwise_append] at hsort
    have hsq := hsort.1
    have hts : ∀ q ∈ qs, q.2.timestamp < p.2.timestamp := by
      intro q hq
      exact hsort.2.2 q hq p (by simp)
    rw [runPuts_append, ih hndq hsq]
    have hidfresh : p.1 ∉ (qs.drop (qs.length - 10)).map Prod.fst := by
      intro hmem
      have hsub : List.Sublist ((qs.drop (qs.length - 10)).map Prod.fst)
          (qs.map Prod.fst) := (List.drop_sublist _ _).map Prod.fst
      have hp1 : p.1 ∈ qs.map Prod.fst := hsub.subset hmem
      have hdis := (List.nodup_append.mp hnd).2.2
      exact hdis hp1 (by simp)
    have hsortd : (qs.drop (qs.length - 10)).Pairwise
        (fun a b => a.2.timestamp < b.2.timestamp) :=
      hsq.sublist (List.drop_sublist _ _)
    have htsd : ∀ q ∈ qs.drop (qs.length - 10), q.2.timestamp < p.2.timestamp :=
      fun q hq => hts q (List.drop_subset _ _ hq)
    rw [putCache_fresh _ _ _ hidfresh hsortd htsd]
    have hdlen : (qs.drop (qs.length - 10)).length = qs.length - (qs.length - 10) := by
      simp
    by_cases hcase : qs.length ≤ 9
    · have h1 : (qs.drop (qs.length - 10)).length + 1 - 10 = 0 := by omega
      have h2 : (qs ++ [p]).length - 10 = 0 := by
        simp only [List.length_append, List.length_cons, List.length_nil]
        omega
      have h3 : qs.length - 10 = 0 := by omega
      rw [h1, h2, h3, List.drop_zero, List.drop_zero, List.drop_zero]
    · have h1 : (qs.drop (qs.length - 10)).length + 1 - 10 = 1 := by omega
      have h2 : (qs ++ [p]).length - 10 = (qs.length - 10) + 1 := by
        simp only [List.length_append, List.length_cons, List.length_nil]
        omega
      rw [h1, h2]
      rw [List.drop_append_of_le_length (by omega : 1 ≤ (qs.drop (qs.length - 10)).length),
        List.drop_append_of_le_length (by omega : qs.length - 10 + 1 ≤ qs.length),
        List.drop_drop]

/-- C4: for every in-process sequence of puts with distinct ids and
strictly increasing creation timestamps, the cache ends up holding
exactly the last min(length, 10) puts: every one of the 10
most-recently-created entries is retrievable by get, and get on every
older (evicted) id returns NotFound — eviction is
oldest-by-creation-timestamp first. -/
theorem cache_eviction_policy (ps : List (String × CacheEntry))
    (hnd : (ps.map Prod.fst).Nodup)
    (hsort : ps.Pairwise (fun a b => a.2.timestamp < b.2.timestamp)) :
    runPuts ps = ps.drop (ps.length - 10) ∧
      (∀ p ∈ ps.drop (ps.length - 10), mapGet (runPuts ps) p.1 = some p.2) ∧
      (∀ p ∈ ps.take (ps.length - 10), mapGet (runPuts ps) p.1 = none) := by
  have hmain := runPuts_eq_drop ps hnd hsort
  have hsplit : ps = ps.take (ps.length - 10) ++ ps.drop (ps.length - 10) :=
    (List.take_append_drop _ _).symm
  have hnd' : ((ps.take (ps.length - 10)).map Prod.fst ++
      (ps.drop (ps.length - 10)).map Prod.fst).Nodup := by
    rw [← List.map_append, ← hsplit]
    exact hnd
  refine ⟨hmain, ?_, ?_⟩
  · intro p hp
    rw [hmain]
    exact mapGet_of_mem _ p hp (List.nodup_append.mp hnd').2.1
  · intro p hp
    rw [hmain]
    apply mapGet_eq_none
    have hdis := (List.nodup_append.mp hnd').2.2
    exact fun hmem => hdis (List.mem_map_of_mem Prod.fst hp) hmem

/-- Witness for C4: eleven puts overflow capacity by one; the last ten
remain retrievable and the first id is gone. -/
theorem cache_eviction_policy_witness :
    runPuts psEleven = psEleven.drop (psEleven.length - 10) ∧
      (∀ p ∈ psEleven.drop (psEleven.length - 10), mapGet (runPuts psEleven) p.1 = some p.2) ∧
      (∀ p ∈ psEleven.take (psEleven.length - 10), mapGet (runPuts psEleven) p.1 = none) :=
  cache_eviction_policy psEleven (by decide) (by decide)

/-- C8: putting bytes `B` under a fresh id with the newest creation
timestamp makes `get` on that id return exactly the stored entry
(byte-identical buffer `B`), and `get` on any id that was never stored
returns NotFound. -/
theorem cache_put_get (c : Cache) (id : String) (B : List ℕ) (ts : ℕ) (cap : String)
    (hnd : (c.map Prod.fst).Nodup)
    (hsort : c.Pairwise (fun a b => a.2.timestamp < b.2.timestamp))
    (hid : id ∉ c.map Prod.fst)
    (hts : ∀ q ∈ c, q.2.timestamp < ts) :
    mapGet (putCache c id ⟨B, ts, cap⟩) id = some ⟨B, ts, cap⟩ ∧
      ∀ id', id' ∉ c.map Prod.fst → id' ≠ id →
        mapGet (putCache c id ⟨B, ts, cap⟩) id' = none := by
  rw [putCache_fresh c id _ hid hsort hts]
  have hk : (c.length + 1) - 10 ≤ c.length := by omega
  rw [List.drop_append_of_le_length hk]
  have hkeys : ((c.drop ((c.length + 1) - 10)).map Prod.fst ++ [id]).Nodup := by
    rw [List.nodup_append]
    refine ⟨?_, List.nodup_singleton id, ?_⟩
    · exact hnd.sublist ((List.drop_sublist _ _).map Prod.fst)
    · intro a ha hb
      simp only [List.mem_singleton] at hb
      subst hb
      exact hid (((List.drop_sublist _ _).map Prod.fst).subset ha)
  constructor
  · have hmem : (id, (⟨B, ts, cap⟩ : CacheEntry)) ∈
        c.drop ((c.length + 1) - 10) ++ [(id, ⟨B, ts, cap⟩)] := by simp
    have := mapGet_of_mem _ (id, ⟨B, ts, cap⟩) hmem (by simpa using hkeys)
    simpa using this
  · intro id' h1 h2
    apply mapGet_eq_none
    simp only [List.map_append, List.map_cons, List.map_nil, List.mem_append,
      List.mem_singleton]
    push_neg
    refine ⟨?_, h2⟩
    exact fun hmem => h1 (((List.drop_sublist _ _).map Prod.fst).subset hmem)

/-- Witness for C8 on a concrete one-entry cache. -/
theorem cache_put_get_witness :
    mapGet (putCache [("a", ⟨[1], 0, "x"⟩)] "b" ⟨[7, 8], 5, "y"⟩) "b" =
        some ⟨[7, 8], 5, "y"⟩ ∧
      ∀ id', id' ∉ ([("a", (⟨[1], 0, "x"⟩ : CacheEntry))].map Prod.fst) → id' ≠ "b" →
        mapGet (putCache [("a", ⟨[1], 0, "x"⟩)] "b" ⟨[7, 8], 5, "y"⟩) id' = none :=
  cache_put_get [("a", ⟨[1], 0, "x"⟩)] "b" [7, 8] 5 "y"
    (by decide) (by decide) (by decide) (by decide)

/-- C10 (amended): the handler always returns a structured response,
never an unhandled exception.  EMPTY image bytes produce a 400 JSON
error before any image processing (the result is the same for every
oracle behavior); MISSING image bytes — a multipart request without an
image file part, or an absent raw body — instead throw during ingestion
and are caught as a 500; every internal processing failure (ingestion,
metadata probe, compositing) is caught and produces a 500 JSON body
with the error kind and exception message and leaves the cache
untouched; raw image bytes appear only in a 200 response of the
cache-serving path, so no partial image output is ever returned on
failure. -/
theorem handler_error_handling (or' : Oracles) (cache : Cache) (ev : Event) (now : ℕ) :
    (∀ capt brand, ingest ev = .ok (capt, brand, []) → ev.serveId = none →
      handler or' cache ev now =
        ({ statusCode := 400, body := .errorJson "No image data provided" none }, cache)) ∧
    (∀ m, ingest ev = .error m → ev.serveId = none →
      handler or' cache ev now =
        ({ statusCode := 500, body := .errorJson "Image processing failed" (some m) }, cache)) ∧
    (∀ capt brand buf m, ingest ev = .ok (capt, brand, buf) → ev.serveId = none →
      buf ≠ [] → or'.sharpMetadata buf = .error m →
      handler or' cache ev now =
        ({ statusCode := 500, body := .errorJson "Image processing failed" (some m) }, cache)) ∧
    (∀ capt brand buf m meta, ingest ev = .ok (capt, brand, buf) → ev.serveId = none →
      buf ≠ [] → or'.sharpMetadata buf = .ok meta →
      or'.composite buf (textBufferFor or' capt) (boxFor or' capt) = .error m →
      handler or' cache ev now =
        ({ statusCode := 500,
           body := .errorJson "Image processing failed"
             (some ("Image processing failed: " ++ m)) }, cache)) ∧
    (∀ bytes, (handler or' cache ev now).1.body = .imageBody bytes →
      (handler or' cache ev now).1.statusCode = 200 ∧
        ∃ qid e, ev.serveId = some qid ∧ mapGet cache qid = some e ∧ e.buffer = bytes) := by
  refine ⟨?_, ?_, ?_, ?_, ?_⟩
  · intro capt brand h hserve
    simp [handler, handlerAux, Bind.bind, Except.bind, Pure.pure, Except.pure, hserve, h]
  · intro m h hserve
    simp [handler, handlerAux, Bind.bind, Except.bind, Pure.pure, Except.pure, hserve, h]
  · intro capt brand buf m h hserve hb hmeta
    simp [handler, handlerAux, Bind.bind, Except.bind, Pure.pure, Except.pure, hserve, h, hmeta,
      List.length_eq_zero, hb]
  · intro capt brand buf m meta h hserve hb hmeta hcomp
    simp [handler, handlerAux, Bind.bind, Except.bind, Pure.pure, Except.pure, hserve, h, hmeta,
      hcomp, List.length_eq_zero, hb]
  · intro bytes hbody
    cases hserve : ev.serveId with
    | some qid =>
      cases hget : mapGet cache qid with
      | none =>
        simp [handler, handlerAux, Pure.pure, Except.pure, hserve, hget] at hbody
      | some e =>
        simp [handler, handlerAux, Pure.pure, Except.pure, hserve, hget] at hbody ⊢
        exact hbody
    | none =>
      rcases hing : ingest ev with m | ⟨capt, brand, buf⟩
      · simp [handler, handlerAux, Bind.bind, Except.bind, Pure.pure, Except.pure, hserve, hing] at hbody
      · by_cases hb : buf.length = 0
        · simp [handler, handlerAux, Bind.bind, Except.bind, Pure.pure, Except.pure, hserve, hing, hb] at hbody
        · rcases hmeta : or'.sharpMetadata buf with m | meta
          · simp [handler, handlerAux, Bind.bind, Except.bind, Pure.pure, Except.pure, hserve, hing, hb, hmeta] at hbody
          · rcases hcomp : or'.composite buf (textBufferFor or' capt) (boxFor or' capt)
              with m | out
            · simp [handler, handlerAux, Bind.bind, Except.bind, Pure.pure, Except.pure, hserve, hing, hb, hmeta, hcomp] at hbody
            · simp [handler, handlerAux, Bind.bind, Except.bind, Pure.pure, Except.pure, hserve, hing, hb, hmeta, hcomp] at hbody

/-- C10 counterexample: missing image bytes (multipart request with no
image file part) produce a 500 through the thrown
`Image file not found...` error, not the claimed 400. -/
theorem handler_missing_image_counterexample :
    (handler orBase [] evNoFile 0).1.statusCode = 500 ∧
      (handler orBase [] evNoFile 0).1.statusCode ≠ 400 := by
  with_unfolding_all decide

/-- Witness for C10 (amended): empty bytes give the structured 400. -/
theorem handler_error_handling_witness :
    handler orBase [] evEmpty 0 =
      ({ statusCode := 400, body := .errorJson "No image data provided" none }, []) :=
  (handler_error_handling orBase [] evEmpty 0).1 "Default Caption" "#667eea"
    (by with_unfolding_all rfl) rfl
